import Mathlib

/-!
# Verification of the IPFE Price-of-Anarchy simulation

A shallow embedding of `src/simulation/ipfe_poa.rs`.  Rust `f64` values are
modelled as exact rationals (`ℚ`); the injected random generator is modelled
as an explicit stream of draws (`Rng`), each `rng.gen::<f64>()` consuming one
draw and `rng.gen_range(0..n)` consuming one draw and mapping it to an index
below `n`.  All functions are translated directly from the source.
-/

/-- The injected random generator: an infinite stream of draws (nominally
uniform in `[0,1)`) together with a cursor. -/
structure Rng where
  draws : Nat → ℚ
  idx : Nat

/-- `rng.gen::<f64>()`: take the next draw, advance the cursor. -/
def Rng.next (r : Rng) : ℚ × Rng :=
  (r.draws r.idx, ⟨r.draws, r.idx + 1⟩)

/-- `rng.gen_range(0..n)`: consume one uniform draw `u` and return the index
`⌊u·n⌋`, clamped into `0..n-1`. -/
def Rng.nextRange (r : Rng) (n : Nat) : Nat × Rng :=
  let p := Rng.next r
  (min (Int.toNat ⌊p.1 * (n : ℚ)⌋) (n - 1), p.2)

def NUM_CDPS : Nat := 100
def NUM_KEEPERS : Nat := 20
def ETH_PRICE : ℚ := 2000
def LIQUIDATION_PENALTY : ℚ := 13/100

inductive ObfuscationStrategy where
  | Transparent
  | NoiseBased
  | IPFE
  | FairRAI
  | FairRAI5050
  | KeeperPool
deriving DecidableEq

structure CDP where
  id : Nat
  collateral : ℚ
  debt : ℚ
  age_days : ℚ
  volatility_score : ℚ
deriving DecidableEq

/-- `CDP::new`: collateral ~ 1+U·9, ratio ~ 1.3+U·0.5, debt derived, age ~ U·365,
volatility ~ U; four draws in this order. -/
def CDP.new (id : Nat) (r : Rng) : CDP × Rng :=
  let p1 := Rng.next r
  let p2 := Rng.next p1.2
  let collateral := 1 + p1.1 * 9
  let ratio0 := 13/10 + p2.1 * (5/10)
  let debt := collateral * ETH_PRICE / ratio0
  let p3 := Rng.next p2.2
  let p4 := Rng.next p3.2
  (⟨id, collateral, debt, p3.1 * 365, p4.1⟩, p4.2)

def CDP.collateral_ratio (c : CDP) (eth_price : ℚ) : ℚ :=
  c.collateral * eth_price / c.debt

def CDP.features (c : CDP) (eth_price : ℚ) : List ℚ :=
  [ CDP.collateral_ratio c eth_price,
    c.volatility_score,
    c.debt / (c.collateral * eth_price),
    min (c.age_days / 365) 1,
    min (c.collateral * eth_price / 10000) 2 ]

def CDP.liquidation_profit (c : CDP) (eth_price : ℚ) : ℚ :=
  let collateral_value := c.collateral * eth_price
  let profit := collateral_value - c.debt - 50
  max profit 0 * LIQUIDATION_PENALTY

structure Keeper where
  id : Nat
  gas_priority : ℚ
  total_profit : ℚ
  successful_liquidations : Nat
deriving DecidableEq

instance : Inhabited Keeper := ⟨⟨0, 0, 0, 0⟩⟩

/-- `Keeper::new`: gas priority is one uniform draw; profit and count start at 0. -/
def Keeper.new (id : Nat) (r : Rng) : Keeper × Rng :=
  let p := Rng.next r
  (⟨id, p.1, 0, 0⟩, p.2)

structure LiquidationGame where
  cdps : List CDP
  eth_price : ℚ
  true_weights : List ℚ
  true_threshold : ℚ
  strategy : ObfuscationStrategy
  noise_level : ℚ

/-- Generate a list by threading the rng through `f` at each index, in order. -/
def genWith {α : Type} (f : Nat → Rng → α × Rng) : List Nat → Rng → List α × Rng
  | [], r => ([], r)
  | i :: is, r =>
      let p := f i r
      let q := genWith f is p.2
      (p.1 :: q.1, q.2)

/-- `LiquidationGame::new`. -/
def LiquidationGame.new (strategy : ObfuscationStrategy) (r : Rng) :
    LiquidationGame × Rng :=
  let p := genWith CDP.new (List.range NUM_CDPS) r
  (⟨p.1, ETH_PRICE, [2, -1, -3/2, 3/10, -3/10], 2, strategy, 29/100⟩, p.2)

def LiquidationGame.compute_true_score (g : LiquidationGame) (c : CDP) : ℚ :=
  ((( CDP.features c g.eth_price).zip g.true_weights).map (fun p => p.1 * p.2)).sum

def LiquidationGame.is_truly_liquidatable (g : LiquidationGame) (c : CDP) : Bool :=
  decide ( LiquidationGame.compute_true_score g c < g.true_threshold)

/-- `keeper_perceives_liquidatable`: per-strategy perception, consuming one
fresh draw in every branch except Transparent. -/
def LiquidationGame.keeper_perceives_liquidatable (g : LiquidationGame) (c : CDP)
    (r : Rng) : (Bool × ℚ) × Rng :=
  match g.strategy with
  | ObfuscationStrategy.Transparent =>
      let score := LiquidationGame.compute_true_score g c
      ((decide (score < g.true_threshold), 1), r)
  | ObfuscationStrategy.NoiseBased =>
      let p := Rng.next r
      let perceived_threshold := g.true_threshold * (1 + (p.1 - 5/10) * 2 * g.noise_level)
      let score := LiquidationGame.compute_true_score g c
      let confidence := 1 - g.noise_level
      ((decide (score < perceived_threshold), confidence), p.2)
  | ObfuscationStrategy.IPFE =>
      let ratio0 := CDP.collateral_ratio c g.eth_price
      let perceived_liquidatable := decide ( ratio0 < 16/10)
      let p := Rng.next r
      let confidence := 2/10 + p.1 * (4/10)
      ((perceived_liquidatable, confidence), p.2)
  | _ =>
      let ratio0 := CDP.collateral_ratio c g.eth_price
      let perceived_liquidatable := decide ( ratio0 < 16/10)
      let p := Rng.next r
      ((perceived_liquidatable, p.1), p.2)

def LiquidationGame.simulate_price_drop (g : LiquidationGame) (pct : ℚ) :
    LiquidationGame :=
  { g with eth_price := g.eth_price * (1 - pct) }

/-- The `uses_random` test of `simulate_game`. -/
def uses_random : ObfuscationStrategy → Bool
  | ObfuscationStrategy.FairRAI => true
  | ObfuscationStrategy.FairRAI5050 => true
  | ObfuscationStrategy.KeeperPool => true
  | _ => false

/-- One bid: `(keeper_id, priority, confidence)`. -/
abbrev Bid := Nat × ℚ × ℚ

/-- The per-position bid-collection loop: each keeper in order perceives the
position; bidders that perceive it eligible emit a bid with
`priority = gas_priority * confidence`. -/
def collectBids (g : LiquidationGame) (c : CDP) : List Keeper → Rng → List Bid × Rng
  | [], r => ([], r)
  | k :: ks, r =>
      let p := LiquidationGame.keeper_perceives_liquidatable g c r
      let rest := collectBids g c ks p.2
      (if p.1.1 then (k.id, k.gas_priority * p.1.2, p.1.2) :: rest.1 else rest.1, rest.2)

/-- `attempts.sort_by(|a, b| b.1.partial_cmp(&a.1).unwrap())`: stable sort,
descending by priority. -/
def sortBids (l : List Bid) : List Bid :=
  l.mergeSort (fun a b => decide (b.2.1 ≤ a.2.1))

/-- `winner_idx`: a fresh uniform index for the fair strategies, index 0 (the
top-ranked bid) otherwise. -/
def select_winner_idx (strat : ObfuscationStrategy) (n : Nat) (r : Rng) : Nat × Rng :=
  if uses_random strat then Rng.nextRange r n else (0, r)

/-- `keepers[i].total_profit += x` (no effect when `i` is out of range). -/
def addProfit : List Keeper → Nat → ℚ → List Keeper
  | [], _, _ => []
  | k :: ks, 0, x => { k with total_profit := k.total_profit + x } :: ks
  | k :: ks, n + 1, x => k :: addProfit ks n x

/-- `keepers[i].successful_liquidations += 1`. -/
def incSucc : List Keeper → Nat → List Keeper
  | [], _ => []
  | k :: ks, 0 => { k with successful_liquidations := k.successful_liquidations + 1 } :: ks
  | k :: ks, n + 1 => k :: incSucc ks n

/-- The FairRAI loop over `attempts.iter().enumerate()` adding `per_other` to
every bidder whose index differs from the winner index. -/
def distributeOthers (per_other : ℚ) (winner_idx : Nat) :
    List (Nat × Bid) → List Keeper → List Keeper
  | [], ks => ks
  | e :: es, ks =>
      distributeOthers per_other winner_idx es
        (if e.1 ≠ winner_idx then addProfit ks e.2.1 per_other else ks)

/-- The KeeperPool loop adding `per_keeper` to every bidder. -/
def distributeAll (per_keeper : ℚ) : List Bid → List Keeper → List Keeper
  | [], ks => ks
  | b :: bs, ks => distributeAll per_keeper bs (addProfit ks b.1 per_keeper)

/-- The profit-distribution `match` of `simulate_game`: FairRAI 60/40 and
FairRAI5050 50/50 splits when more than one bid, KeeperPool 70% equal split,
winner-takes-all otherwise. -/
def distributeProfit (strat : ObfuscationStrategy) (profit : ℚ) (attempts : List Bid)
    (winner_idx winner_id : Nat) (ks : List Keeper) : List Keeper :=
  match strat with
  | ObfuscationStrategy.FairRAI =>
      if 1 < attempts.length then
        let winner_share := profit * (6/10)
        let pool_share := profit * (4/10)
        let per_other := pool_share / ((attempts.length - 1 : Nat) : ℚ)
        distributeOthers per_other winner_idx attempts.enum
          (addProfit ks winner_id winner_share)
      else addProfit ks winner_id profit
  | ObfuscationStrategy.FairRAI5050 =>
      if 1 < attempts.length then
        let winner_share := profit * (5/10)
        let pool_share := profit * (5/10)
        let per_other := pool_share / ((attempts.length - 1 : Nat) : ℚ)
        distributeOthers per_other winner_idx attempts.enum
          (addProfit ks winner_id winner_share)
      else addProfit ks winner_id profit
  | ObfuscationStrategy.KeeperPool =>
      let keeper_pool := profit * (7/10)
      let per_keeper := keeper_pool / (attempts.length : ℚ)
      distributeAll per_keeper attempts ks
  | _ => addProfit ks winner_id profit

/-- The mutable state threaded through the per-position loop of `simulate_game`. -/
structure RunAcc where
  keepers : List Keeper
  total_profit_extracted : ℚ
  failed_attempts : Nat
  successful_liquidations : Nat
  front_runner_profit : ℚ
  missed_liquidations : Nat
  rng : Rng

/-- The body of the per-position loop of `simulate_game`. -/
def processCDP (g : LiquidationGame) (st : RunAcc) (c : CDP) : RunAcc :=
  let ar := collectBids g c st.keepers st.rng
  if ar.1.isEmpty then
    if LiquidationGame.is_truly_liquidatable g c then
      { st with missed_liquidations := st.missed_liquidations + 1, rng := ar.2 }
    else
      { st with rng := ar.2 }
  else
    let attempts := sortBids ar.1
    let wr := select_winner_idx g.strategy attempts.length ar.2
    let winner_idx := wr.1
    let winner_id := ( attempts.getD winner_idx default).1
    if LiquidationGame.is_truly_liquidatable g c then
      let profit := CDP.liquidation_profit c g.eth_price
      let ks1 := distributeProfit g.strategy profit attempts winner_idx winner_id st.keepers
      let ks2 := incSucc ks1 winner_id
      let fr := if (8:ℚ)/10 < ( ks2.getD winner_id default).gas_priority then profit else 0
      { keepers := ks2,
        total_profit_extracted := st.total_profit_extracted + profit,
        failed_attempts := st.failed_attempts,
        successful_liquidations := st.successful_liquidations + 1,
        front_runner_profit := st.front_runner_profit + fr,
        missed_liquidations := st.missed_liquidations,
        rng := wr.2 }
    else
      { st with failed_attempts := st.failed_attempts + 1, rng := wr.2 }

structure GameResult where
  strategy : ObfuscationStrategy
  successful_liquidations : Nat
  failed_attempts : Nat
  missed_liquidations : Nat
  total_profit : ℚ
  front_runner_profit : ℚ
  profit_concentration : ℚ
  gas_waste_ratio : ℚ
  coverage : ℚ
deriving DecidableEq

/-- `simulate_game`: build the game and keepers, apply the 10% price crash,
resolve every position, then compute the per-run metrics. -/
def simulate_game (strategy : ObfuscationStrategy) (r : Rng) : GameResult :=
  let gp := LiquidationGame.new strategy r
  let kp := genWith Keeper.new (List.range NUM_KEEPERS) gp.2
  let game := LiquidationGame.simulate_price_drop gp.1 (10/100)
  let truly_liquidatable : List Nat :=
    (game.cdps.enum.filter (fun ic => LiquidationGame.is_truly_liquidatable game ic.2)).map
      (fun ic => ic.1)
  let st0 : RunAcc :=
    { keepers := kp.1, total_profit_extracted := 0, failed_attempts := 0,
      successful_liquidations := 0, front_runner_profit := 0,
      missed_liquidations := 0, rng := kp.2 }
  let st := game.cdps.foldl (processCDP game) st0
  let profit_concentration :=
    if 0 < st.total_profit_extracted then
      let profits := st.keepers.map Keeper.total_profit
      let sorted := profits.mergeSort (fun a b => decide (b ≤ a))
      (sorted.take (NUM_KEEPERS / 5)).sum / st.total_profit_extracted
    else 0
  let gas_waste_ratio :=
    (st.failed_attempts : ℚ) /
      ((max (st.failed_attempts + st.successful_liquidations) 1 : Nat) : ℚ)
  let coverage :=
    (st.successful_liquidations : ℚ) / ((max truly_liquidatable.length 1 : Nat) : ℚ)
  { strategy := strategy,
    successful_liquidations := st.successful_liquidations,
    failed_attempts := st.failed_attempts,
    missed_liquidations := st.missed_liquidations,
    total_profit := st.total_profit_extracted,
    front_runner_profit := st.front_runner_profit,
    profit_concentration := profit_concentration,
    gas_waste_ratio := gas_waste_ratio,
    coverage := coverage }

/-- `compute_poa`: averages the three welfare statistics over the runs and
divides the Nash cost by the hardcoded social optimum `0.2` (floored at `0.01`). -/
def compute_poa (results : List GameResult) : ℚ :=
  let avg_concentration := (results.map GameResult.profit_concentration).sum / (results.length : ℚ)
  let avg_gas_waste := (results.map GameResult.gas_waste_ratio).sum / (results.length : ℚ)
  let avg_coverage := (results.map GameResult.coverage).sum / (results.length : ℚ)
  let nash_cost := avg_concentration + avg_gas_waste + (1 - avg_coverage)
  let social_optimum : ℚ := 2/10 + 0 + 0
  nash_cost / max social_optimum (1/100)

/-- The spec's reading of the social optimum: an ideal equal split among the
configured population of `NUM_KEEPERS = 20` bidders, i.e. `1/20`, with the same
floor `ε`.  Kept separate so it can be compared with `compute_poa`. -/
def compute_poa_equal_split (results : List GameResult) : ℚ :=
  let avg_concentration := (results.map GameResult.profit_concentration).sum / (results.length : ℚ)
  let avg_gas_waste := (results.map GameResult.gas_waste_ratio).sum / (results.length : ℚ)
  let avg_coverage := (results.map GameResult.coverage).sum / (results.length : ℚ)
  let nash_cost := avg_concentration + avg_gas_waste + (1 - avg_coverage)
  let social_optimum : ℚ := 1 / (NUM_KEEPERS : ℚ)
  nash_cost / max social_optimum (1/100)

/-! ## Bookkeeping lemmas about keeper lists -/

/-- Total profit held by a keeper list. -/
def sumProfits (ks : List Keeper) : ℚ := (ks.map Keeper.total_profit).sum

/-- Profit of the keeper at index `i` (0 out of range). -/
def getProfit (ks : List Keeper) (i : Nat) : ℚ := ( ks.getD i default).total_profit

/-- All keepers hold nonnegative profit. -/
def KeepersNonneg (ks : List Keeper) : Prop := ∀ k ∈ ks, 0 ≤ k.total_profit

theorem addProfit_length (ks : List Keeper) (i : Nat) (x : ℚ) :
    (addProfit ks i x).length = ks.length := by
  induction ks generalizing i with
  | nil => simp [addProfit]
  | cons k ks ih =>
      cases i with
      | zero => simp [addProfit]
      | succ n => simp [addProfit, ih]

theorem incSucc_length (ks : List Keeper) (i : Nat) :
    (incSucc ks i).length = ks.length := by
  induction ks generalizing i with
  | nil => simp [incSucc]
  | cons k ks ih =>
      cases i with
      | zero => simp [incSucc]
      | succ n => simp [incSucc, ih]

theorem sumProfits_addProfit_of_lt (ks : List Keeper) (i : Nat) (x : ℚ)
    (h : i < ks.length) :
    sumProfits (addProfit ks i x) = sumProfits ks + x := by
  induction ks generalizing i with
  | nil => simp at h
  | cons k ks ih =>
      cases i with
      | zero => simp [addProfit, sumProfits]; ring
      | succ n =>
          have hn : n < ks.length := by simpa using h
          simp only [addProfit, sumProfits, List.map_cons, List.sum_cons]
          rw [show (ks.map Keeper.total_profit).sum = sumProfits ks from rfl] at *
          rw [show ((addProfit ks n x).map Keeper.total_profit).sum
              = sumProfits (addProfit ks n x) from rfl]
          rw [ih n hn]; ring

theorem addProfit_of_le (ks : List Keeper) (i : Nat) (x : ℚ) (h : ks.length ≤ i) :
    addProfit ks i x = ks := by
  induction ks generalizing i with
  | nil => simp [addProfit]
  | cons k ks ih =>
      cases i with
      | zero => simp at h
      | succ n =>
          have hn : ks.length ≤ n := by simpa using h
          simp [addProfit, ih n hn]

theorem sumProfits_addProfit_le (ks : List Keeper) (i : Nat) (x : ℚ) (hx : 0 ≤ x) :
    sumProfits (addProfit ks i x) ≤ sumProfits ks + x := by
  by_cases h : i < ks.length
  · rw [sumProfits_addProfit_of_lt ks i x h]
  · rw [addProfit_of_le ks i x (le_of_not_lt h)]
    linarith

theorem addProfit_nonneg (ks : List Keeper) (i : Nat) (x : ℚ)
    (hks : KeepersNonneg ks) (hx : 0 ≤ x) : KeepersNonneg (addProfit ks i x) := by
  induction ks generalizing i with
  | nil => simpa [addProfit] using hks
  | cons k ks ih =>
      cases i with
      | zero =>
          intro q hq
          rcases List.mem_cons.mp hq with h | h
          · subst h
            have := hks k (List.mem_cons_self k ks)
            simp only []
            have : (0:ℚ) ≤ k.total_profit + x := by linarith
            simpa [addProfit] using this
          · exact hks q (List.mem_cons_of_mem _ h)
      | succ n =>
          intro q hq
          rcases List.mem_cons.mp hq with h | h
          · subst h; exact hks q (List.mem_cons_self q ks)
          · exact ih n (fun p hp => hks p (List.mem_cons_of_mem _ hp)) q h

theorem incSucc_map_profit (ks : List Keeper) (i : Nat) :
    (incSucc ks i).map Keeper.total_profit = ks.map Keeper.total_profit := by
  induction ks generalizing i with
  | nil => simp [incSucc]
  | cons k ks ih =>
      cases i with
      | zero => simp [incSucc]
      | succ n => simp [incSucc, ih]

theorem sumProfits_incSucc (ks : List Keeper) (i : Nat) :
    sumProfits (incSucc ks i) = sumProfits ks := by
  unfold sumProfits; rw [incSucc_map_profit]

theorem incSucc_nonneg (ks : List Keeper) (i : Nat) (hks : KeepersNonneg ks) :
    KeepersNonneg (incSucc ks i) := by
  induction ks generalizing i with
  | nil => simpa [incSucc] using hks
  | cons k ks ih =>
      cases i with
      | zero =>
          intro q hq
          rcases List.mem_cons.mp hq with h | h
          · subst h; simpa [incSucc] using hks k (List.mem_cons_self k ks)
          · exact hks q (List.mem_cons_of_mem _ h)
      | succ n =>
          intro q hq
          rcases List.mem_cons.mp hq with h | h
          · subst h; exact hks q (List.mem_cons_self q ks)
          · exact ih n (fun p hp => hks p (List.mem_cons_of_mem _ hp)) q h

theorem getProfit_addProfit (ks : List Keeper) (i j : Nat) (x : ℚ)
    (hj : j < ks.length) :
    getProfit (addProfit ks i x) j = getProfit ks j + (if i = j then x else 0) := by
  induction ks generalizing i j with
  | nil => simp at hj
  | cons k ks ih =>
      cases i with
      | zero =>
          cases j with
          | zero => simp [addProfit, getProfit]
          | succ m => simp [addProfit, getProfit]
      | succ n =>
          cases j with
          | zero => simp [addProfit, getProfit, Nat.succ_ne_zero]
          | succ m =>
              have hm : m < ks.length := by simpa using hj
              have := ih n m hm
              simpa [addProfit, getProfit, Nat.succ_inj'] using this

/-! ## Lemmas about the profit-distribution loops -/

theorem distributeOthers_length (per : ℚ) (w : Nat) (l : List (Nat × Bid))
    (ks : List Keeper) : (distributeOthers per w l ks).length = ks.length := by
  induction l generalizing ks with
  | nil => simp [distributeOthers]
  | cons e es ih =>
      simp only [distributeOthers]
      rw [ih]
      split <;> simp [addProfit_length]

theorem distributeAll_length (per : ℚ) (l : List Bid) (ks : List Keeper) :
    (distributeAll per l ks).length = ks.length := by
  induction l generalizing ks with
  | nil => simp [distributeAll]
  | cons b bs ih =>
      simp only [distributeAll]
      rw [ih, addProfit_length]

theorem distributeOthers_sum_eq (per : ℚ) (w : Nat) (l : List (Nat × Bid))
    (ks : List Keeper) (h : ∀ e ∈ l, e.2.1 < ks.length) :
    sumProfits (distributeOthers per w l ks)
      = sumProfits ks + (l.countP (fun e => decide (e.1 ≠ w))) * per := by
  induction l generalizing ks with
  | nil => simp [distributeOthers]
  | cons e es ih =>
      have hcnt : (e :: es).countP (fun x => decide (x.1 ≠ w))
          = es.countP (fun x => decide (x.1 ≠ w)) + (if e.1 ≠ w then 1 else 0) := by
        rw [List.countP_cons]
        by_cases hw : e.1 = w <;> simp [hw]
      rw [hcnt]
      rw [show distributeOthers per w (e :: es) ks
          = distributeOthers per w es (if e.1 ≠ w then addProfit ks e.2.1 per else ks)
          from rfl]
      by_cases hw : e.1 = w
      · rw [if_neg (fun hne => hne hw), if_neg (fun hne => hne hw)]
        rw [ih ks (fun q hq => h q (List.mem_cons_of_mem _ hq))]
        simp
      · rw [if_pos hw, if_pos hw]
        rw [ih (addProfit ks e.2.1 per)
            (fun q hq => by rw [addProfit_length]; exact h q (List.mem_cons_of_mem _ hq))]
        rw [sumProfits_addProfit_of_lt ks e.2.1 per (h e (List.mem_cons_self e es))]
        push_cast
        ring

theorem distributeOthers_sum_le (per : ℚ) (w : Nat) (l : List (Nat × Bid))
    (ks : List Keeper) (hper : 0 ≤ per) :
    sumProfits (distributeOthers per w l ks)
      ≤ sumProfits ks + (l.countP (fun e => decide (e.1 ≠ w))) * per := by
  induction l generalizing ks with
  | nil => simp [distributeOthers]
  | cons e es ih =>
      have hcnt : (e :: es).countP (fun x => decide (x.1 ≠ w))
          = es.countP (fun x => decide (x.1 ≠ w)) + (if e.1 ≠ w then 1 else 0) := by
        rw [List.countP_cons]
        by_cases hw : e.1 = w <;> simp [hw]
      rw [hcnt]
      rw [show distributeOthers per w (e :: es) ks
          = distributeOthers per w es (if e.1 ≠ w then addProfit ks e.2.1 per else ks)
          from rfl]
      by_cases hw : e.1 = w
      · rw [if_neg (fun hne => hne hw), if_neg (fun hne => hne hw)]
        have := ih ks
        simpa using this
      · rw [if_pos hw, if_pos hw]
        calc sumProfits (distributeOthers per w es (addProfit ks e.2.1 per))
            ≤ sumProfits (addProfit ks e.2.1 per)
              + (es.countP (fun x => decide (x.1 ≠ w))) * per := ih _
          _ ≤ sumProfits ks + per + (es.countP (fun x => decide (x.1 ≠ w))) * per := by
              have := sumProfits_addProfit_le ks e.2.1 per hper
              linarith
          _ ≤ _ := by push_cast; ring_nf; linarith [le_refl (sumProfits ks)]

theorem distributeAll_sum_eq (per : ℚ) (l : List Bid) (ks : List Keeper)
    (h : ∀ b ∈ l, b.1 < ks.length) :
    sumProfits (distributeAll per l ks) = sumProfits ks + l.length * per := by
  induction l generalizing ks with
  | nil => simp [distributeAll]
  | cons b bs ih =>
      simp only [distributeAll, List.length_cons]
      rw [ih (addProfit ks b.1 per)
          (fun q hq => by rw [addProfit_length]; exact h q (List.mem_cons_of_mem _ hq))]
      rw [sumProfits_addProfit_of_lt ks b.1 per (h b (List.mem_cons_self b bs))]
      push_cast
      ring

theorem distributeAll_sum_le (per : ℚ) (l : List Bid) (ks : List Keeper)
    (hper : 0 ≤ per) :
    sumProfits (distributeAll per l ks) ≤ sumProfits ks + l.length * per := by
  induction l generalizing ks with
  | nil => simp [distributeAll]
  | cons b bs ih =>
      simp only [distributeAll, List.length_cons]
      calc sumProfits (distributeAll per bs (addProfit ks b.1 per))
          ≤ sumProfits (addProfit ks b.1 per) + bs.length * per := ih _
        _ ≤ sumProfits ks + per + bs.length * per := by
            have := sumProfits_addProfit_le ks b.1 per hper
            linarith
        _ = _ := by push_cast; ring

theorem distributeOthers_nonneg (per : ℚ) (w : Nat) (l : List (Nat × Bid))
    (ks : List Keeper) (hks : KeepersNonneg ks) (hper : 0 ≤ per) :
    KeepersNonneg (distributeOthers per w l ks) := by
  induction l generalizing ks with
  | nil => simpa [distributeOthers] using hks
  | cons e es ih =>
      simp only [distributeOthers]
      apply ih
      split
      · exact addProfit_nonneg ks e.2.1 per hks hper
      · exact hks

theorem distributeAll_nonneg (per : ℚ) (l : List Bid) (ks : List Keeper)
    (hks : KeepersNonneg ks) (hper : 0 ≤ per) :
    KeepersNonneg (distributeAll per l ks) := by
  induction l generalizing ks with
  | nil => simpa [distributeAll] using hks
  | cons b bs ih =>
      simp only [distributeAll]
      exact ih _ (addProfit_nonneg ks b.1 per hks hper)

theorem getProfit_distributeAll (per : ℚ) (l : List Bid) (ks : List Keeper)
    (j : Nat) (hj : j < ks.length) :
    getProfit (distributeAll per l ks) j
      = getProfit ks j + (l.countP (fun b => decide (b.1 = j))) * per := by
  induction l generalizing ks with
  | nil => simp [distributeAll]
  | cons b bs ih =>
      simp only [distributeAll, List.countP_cons]
      rw [ih (addProfit ks b.1 per) (by rw [addProfit_length]; exact hj)]
      rw [getProfit_addProfit ks b.1 j per hj]
      by_cases hb : b.1 = j
      · simp only [hb, decide_True, if_pos rfl]
        push_cast
        ring
      · simp only [hb, decide_False, if_neg hb]
        simp

theorem countP_ne_range (n w : Nat) (hw : w < n) :
    (List.range n).countP (fun i => decide (i ≠ w)) = n - 1 := by
  induction n with
  | zero => simp at hw
  | succ m ih =>
      rw [List.range_succ, List.countP_append]
      by_cases hm : w < m
      · rw [ih hm]
        have hne : m ≠ w := by omega
        simp [hne]
        omega
      · have hwm : w = m := by omega
        subst hwm
        have hall : (List.range w).countP (fun i => decide (i ≠ w)) = w := by
          have hmem : ∀ a ∈ List.range w, (fun i => decide (i ≠ w)) a = true := by
            intro i hi
            have hiw : i < w := List.mem_range.mp hi
            simp
            omega
          rw [List.countP_eq_length.mpr hmem, List.length_range]
        rw [hall]
        simp

theorem countP_enum_ne (l : List Bid) (w : Nat) (hw : w < l.length) :
    l.enum.countP (fun e => decide (e.1 ≠ w)) = l.length - 1 := by
  have h1 : l.enum.countP (fun e => decide (e.1 ≠ w))
      = (l.enum.map Prod.fst).countP (fun i => decide (i ≠ w)) := by
    rw [List.countP_map]
    rfl
  rw [h1, List.enum_map_fst, countP_ne_range l.length w hw]

/-! ## Properties of `distributeProfit` -/

theorem snd_mem_of_mem_enum {α : Type} {l : List α} {e : Nat × α} (he : e ∈ l.enum) :
    e.2 ∈ l := by
  have h := List.mem_map_of_mem Prod.snd he
  rwa [List.enum_map_snd] at h

theorem cast_mul_div_self {c : ℚ} (h : c ≠ 0) (x : ℚ) : c * (x / c) = x := by
  rw [mul_comm]
  exact div_mul_cancel₀ x h

theorem liquidation_profit_nonneg (c : CDP) (p : ℚ) :
    0 ≤ CDP.liquidation_profit c p := by
  unfold CDP.liquidation_profit LIQUIDATION_PENALTY
  have h1 : (0:ℚ) ≤ max (c.collateral * p - c.debt - 50) 0 := le_max_right _ _
  positivity

theorem sortBids_perm (l : List Bid) : (sortBids l).Perm l :=
  List.mergeSort_perm l _

theorem sortBids_length (l : List Bid) : (sortBids l).length = l.length :=
  (sortBids_perm l).length_eq

theorem select_winner_idx_lt (strat : ObfuscationStrategy) (n : Nat) (r : Rng)
    (hn : 0 < n) : (select_winner_idx strat n r).1 < n := by
  unfold select_winner_idx Rng.nextRange
  split
  · simp only []
    have h1 : n - 1 < n := Nat.sub_lt hn Nat.one_pos
    exact lt_of_le_of_lt (min_le_right _ _) h1
  · simpa using hn

/-- C4: for an eligible position resolved under FairRAI or FairRAI5050, the sum
of all bidder profit increments equals exactly the position's full computed
profit — the 60/40 (resp. 50/50) split between the winner and the other
bidders when there is more than one bid, and winner-takes-all when there is
exactly one bid (the match guard falls through to the default arm). -/
theorem distributeProfit_fair_sum (strat : ObfuscationStrategy) (profit : ℚ)
    (attempts : List Bid) (widx wid : Nat) (ks : List Keeper)
    (hstrat : strat = ObfuscationStrategy.FairRAI ∨ strat = ObfuscationStrategy.FairRAI5050)
    (hw : widx < attempts.length)
    (hwid : wid < ks.length)
    (hkid : ∀ b ∈ attempts, b.1 < ks.length) :
    sumProfits (distributeProfit strat profit attempts widx wid ks)
      = sumProfits ks + profit := by
  have hkid' : ∀ (x : ℚ), ∀ e ∈ attempts.enum, e.2.1 < (addProfit ks wid x).length := by
    intro x e he
    rw [addProfit_length]
    exact hkid e.2 (snd_mem_of_mem_enum he)
  have hcnt := countP_enum_ne attempts widx hw
  rcases hstrat with hs | hs <;> subst hs
  · by_cases hgt : 1 < attempts.length
    · simp only [distributeProfit, if_pos hgt]
      rw [distributeOthers_sum_eq _ _ _ _ (hkid' _), hcnt,
        sumProfits_addProfit_of_lt ks wid _ hwid]
      have hne : ((attempts.length - 1 : Nat) : ℚ) ≠ 0 := Nat.cast_ne_zero.mpr (by omega)
      rw [cast_mul_div_self hne]
      ring
    · simp only [distributeProfit, if_neg hgt]
      exact sumProfits_addProfit_of_lt ks wid profit hwid
  · by_cases hgt : 1 < attempts.length
    · simp only [distributeProfit, if_pos hgt]
      rw [distributeOthers_sum_eq _ _ _ _ (hkid' _), hcnt,
        sumProfits_addProfit_of_lt ks wid _ hwid]
      have hne : ((attempts.length - 1 : Nat) : ℚ) ≠ 0 := Nat.cast_ne_zero.mpr (by omega)
      rw [cast_mul_div_self hne]
      ring
    · simp only [distributeProfit, if_neg hgt]
      exact sumProfits_addProfit_of_lt ks wid profit hwid

/-- KeeperPool distributes exactly 70% of the profit: `len` equal shares of
`0.7 · profit / len`. -/
theorem distributeProfit_pool_sum (profit : ℚ) (attempts : List Bid)
    (widx wid : Nat) (ks : List Keeper)
    (hne : attempts ≠ [])
    (hkid : ∀ b ∈ attempts, b.1 < ks.length) :
    sumProfits (distributeProfit ObfuscationStrategy.KeeperPool profit attempts widx wid ks)
      = sumProfits ks + profit * (7/10) := by
  simp only [distributeProfit]
  rw [distributeAll_sum_eq _ _ _ hkid]
  have hl : 0 < attempts.length := List.length_pos.mpr hne
  have hlen : ((attempts.length : ℚ)) ≠ 0 := Nat.cast_ne_zero.mpr (by omega)
  rw [cast_mul_div_self hlen]

theorem distributeProfit_sum_le (strat : ObfuscationStrategy) (profit : ℚ)
    (attempts : List Bid) (widx wid : Nat) (ks : List Keeper)
    (hp : 0 ≤ profit) (hw : widx < attempts.length) :
    sumProfits (distributeProfit strat profit attempts widx wid ks)
      ≤ sumProfits ks + profit := by
  have hlen : 0 < attempts.length := Nat.lt_of_le_of_lt (Nat.zero_le _) hw
  have hcnt := countP_enum_ne attempts widx hw
  cases strat with
  | FairRAI =>
      by_cases hgt : 1 < attempts.length
      · simp only [distributeProfit, if_pos hgt]
        have hne1 : ((attempts.length - 1 : Nat) : ℚ) ≠ 0 := Nat.cast_ne_zero.mpr (by omega)
        have hpos : (0:ℚ) ≤ ((attempts.length - 1 : Nat) : ℚ) := Nat.cast_nonneg _
        have hper : (0:ℚ) ≤ profit * (4/10) / ((attempts.length - 1 : Nat) : ℚ) := by
          positivity
        calc sumProfits (distributeOthers (profit * (4/10) / ((attempts.length - 1 : Nat) : ℚ))
                widx attempts.enum (addProfit ks wid (profit * (6/10))))
            ≤ sumProfits (addProfit ks wid (profit * (6/10)))
              + (attempts.enum.countP (fun e => decide (e.1 ≠ widx)))
                * (profit * (4/10) / ((attempts.length - 1 : Nat) : ℚ)) := by
              exact distributeOthers_sum_le _ _ _ _ hper
          _ ≤ sumProfits ks + profit * (6/10)
              + (attempts.enum.countP (fun e => decide (e.1 ≠ widx)))
                * (profit * (4/10) / ((attempts.length - 1 : Nat) : ℚ)) := by
              have := sumProfits_addProfit_le ks wid (profit * (6/10)) (by positivity)
              linarith
          _ = sumProfits ks + profit := by
              rw [hcnt, cast_mul_div_self hne1]
              ring
      · simp only [distributeProfit, if_neg hgt]
        exact sumProfits_addProfit_le ks wid profit hp
  | FairRAI5050 =>
      by_cases hgt : 1 < attempts.length
      · simp only [distributeProfit, if_pos hgt]
        have hne1 : ((attempts.length - 1 : Nat) : ℚ) ≠ 0 := Nat.cast_ne_zero.mpr (by omega)
        have hpos : (0:ℚ) ≤ ((attempts.length - 1 : Nat) : ℚ) := Nat.cast_nonneg _
        have hper : (0:ℚ) ≤ profit * (5/10) / ((attempts.length - 1 : Nat) : ℚ) := by
          positivity
        calc sumProfits (distributeOthers (profit * (5/10) / ((attempts.length - 1 : Nat) : ℚ))
                widx attempts.enum (addProfit ks wid (profit * (5/10))))
            ≤ sumProfits (addProfit ks wid (profit * (5/10)))
              + (attempts.enum.countP (fun e => decide (e.1 ≠ widx)))
                * (profit * (5/10) / ((attempts.length - 1 : Nat) : ℚ)) := by
              exact distributeOthers_sum_le _ _ _ _ hper
          _ ≤ sumProfits ks + profit * (5/10)
              + (attempts.enum.countP (fun e => decide (e.1 ≠ widx)))
                * (profit * (5/10) / ((attempts.length - 1 : Nat) : ℚ)) := by
              have := sumProfits_addProfit_le ks wid (profit * (5/10)) (by positivity)
              linarith
          _ = sumProfits ks + profit := by
              rw [hcnt, cast_mul_div_self hne1]
              ring
      · simp only [distributeProfit, if_neg hgt]
        exact sumProfits_addProfit_le ks wid profit hp
  | KeeperPool =>
      simp only [distributeProfit]
      have hlenq : ((attempts.length : ℚ)) ≠ 0 := Nat.cast_ne_zero.mpr (by omega)
      have hposl : (0:ℚ) ≤ (attempts.length : ℚ) := Nat.cast_nonneg _
      have hper : (0:ℚ) ≤ profit * (7/10) / (attempts.length : ℚ) := by positivity
      calc sumProfits (distributeAll (profit * (7/10) / (attempts.length : ℚ)) attempts ks)
          ≤ sumProfits ks + attempts.length * (profit * (7/10) / (attempts.length : ℚ)) :=
            distributeAll_sum_le _ _ _ hper
        _ = sumProfits ks + profit * (7/10) := by rw [cast_mul_div_self hlenq]
        _ ≤ sumProfits ks + profit := by linarith
  | Transparent => exact sumProfits_addProfit_le ks wid profit hp
  | NoiseBased => exact sumProfits_addProfit_le ks wid profit hp
  | IPFE => exact sumProfits_addProfit_le ks wid profit hp

theorem distributeProfit_nonneg (strat : ObfuscationStrategy) (profit : ℚ)
    (attempts : List Bid) (widx wid : Nat) (ks : List Keeper)
    (hp : 0 ≤ profit) (hks : KeepersNonneg ks) :
    KeepersNonneg (distributeProfit strat profit attempts widx wid ks) := by
  cases strat with
  | FairRAI =>
      by_cases hgt : 1 < attempts.length
      · simp only [distributeProfit, if_pos hgt]
        apply distributeOthers_nonneg
        · exact addProfit_nonneg _ _ _ hks (by positivity)
        · have hpos : (0:ℚ) ≤ ((attempts.length - 1 : Nat) : ℚ) := by positivity
          positivity
      · simp only [distributeProfit, if_neg hgt]
        exact addProfit_nonneg _ _ _ hks hp
  | FairRAI5050 =>
      by_cases hgt : 1 < attempts.length
      · simp only [distributeProfit, if_pos hgt]
        apply distributeOthers_nonneg
        · exact addProfit_nonneg _ _ _ hks (by positivity)
        · positivity
      · simp only [distributeProfit, if_neg hgt]
        exact addProfit_nonneg _ _ _ hks hp
  | KeeperPool =>
      simp only [distributeProfit]
      apply distributeAll_nonneg
      · exact hks
      · positivity
  | Transparent => exact addProfit_nonneg _ _ _ hks hp
  | NoiseBased => exact addProfit_nonneg _ _ _ hks hp
  | IPFE => exact addProfit_nonneg _ _ _ hks hp

/-! ## Step and fold invariants of the per-position loop -/

theorem processCDP_nonneg (g : LiquidationGame) (st : RunAcc) (c : CDP)
    (hks : KeepersNonneg st.keepers) : KeepersNonneg (processCDP g st c).keepers := by
  simp only [processCDP]
  by_cases hemp : (collectBids g c st.keepers st.rng).1.isEmpty = true
  · rw [if_pos hemp]
    by_cases helig : LiquidationGame.is_truly_liquidatable g c = true
    · rw [if_pos helig]; exact hks
    · rw [if_neg helig]; exact hks
  · rw [if_neg hemp]
    by_cases helig : LiquidationGame.is_truly_liquidatable g c = true
    · rw [if_pos helig]
      exact incSucc_nonneg _ _
        (distributeProfit_nonneg _ _ _ _ _ _ (liquidation_profit_nonneg c g.eth_price) hks)
    · rw [if_neg helig]; exact hks

theorem processCDP_sum_le (g : LiquidationGame) (st : RunAcc) (c : CDP)
    (hsum : sumProfits st.keepers ≤ st.total_profit_extracted) :
    sumProfits (processCDP g st c).keepers
      ≤ (processCDP g st c).total_profit_extracted := by
  simp only [processCDP]
  by_cases hemp : (collectBids g c st.keepers st.rng).1.isEmpty = true
  · rw [if_pos hemp]
    by_cases helig : LiquidationGame.is_truly_liquidatable g c = true
    · rw [if_pos helig]; exact hsum
    · rw [if_neg helig]; exact hsum
  · rw [if_neg hemp]
    by_cases helig : LiquidationGame.is_truly_liquidatable g c = true
    · rw [if_pos helig]
      show sumProfits (incSucc _ _) ≤ st.total_profit_extracted + _
      rw [sumProfits_incSucc]
      have hlen : 0 < (sortBids (collectBids g c st.keepers st.rng).1).length := by
        rw [sortBids_length]
        apply List.length_pos.mpr
        intro hnil
        exact hemp (List.isEmpty_iff.mpr hnil)
      have hw := select_winner_idx_lt g.strategy _ (collectBids g c st.keepers st.rng).2 hlen
      have hle := distributeProfit_sum_le g.strategy (CDP.liquidation_profit c g.eth_price)
        (sortBids (collectBids g c st.keepers st.rng).1)
        (select_winner_idx g.strategy (sortBids (collectBids g c st.keepers st.rng).1).length
          (collectBids g c st.keepers st.rng).2).1
        (( (sortBids (collectBids g c st.keepers st.rng).1).getD
            (select_winner_idx g.strategy (sortBids (collectBids g c st.keepers st.rng).1).length
              (collectBids g c st.keepers st.rng).2).1 default).1)
        st.keepers (liquidation_profit_nonneg c g.eth_price) hw
      linarith
    · rw [if_neg helig]; exact hsum

theorem processCDP_succ_le (g : LiquidationGame) (st : RunAcc) (c : CDP) :
    (processCDP g st c).successful_liquidations
      ≤ st.successful_liquidations
        + (if LiquidationGame.is_truly_liquidatable g c = true then 1 else 0) := by
  simp only [processCDP]
  by_cases hemp : (collectBids g c st.keepers st.rng).1.isEmpty = true
  · rw [if_pos hemp]
    by_cases helig : LiquidationGame.is_truly_liquidatable g c = true
    · rw [if_pos helig, if_pos helig]
      dsimp only
      omega
    · rw [if_neg helig, if_neg helig]
      dsimp only
      omega
  · rw [if_neg hemp]
    by_cases helig : LiquidationGame.is_truly_liquidatable g c = true
    · rw [if_pos helig, if_pos helig]
    · rw [if_neg helig, if_neg helig]
      dsimp only
      omega

theorem processCDP_counts (g : LiquidationGame) (st : RunAcc) (c : CDP) :
    (processCDP g st c).successful_liquidations + (processCDP g st c).failed_attempts
        + (processCDP g st c).missed_liquidations
      = st.successful_liquidations + st.failed_attempts + st.missed_liquidations
        + (if (collectBids g c st.keepers st.rng).1 ≠ []
              ∨ LiquidationGame.is_truly_liquidatable g c = true then 1 else 0) := by
  simp only [processCDP]
  by_cases hemp : (collectBids g c st.keepers st.rng).1.isEmpty = true
  · have hnil : (collectBids g c st.keepers st.rng).1 = [] := List.isEmpty_iff.mp hemp
    rw [if_pos hemp]
    by_cases helig : LiquidationGame.is_truly_liquidatable g c = true
    · rw [if_pos helig, if_pos (by simp [hnil, helig] : (collectBids g c st.keepers st.rng).1 ≠ []
          ∨ LiquidationGame.is_truly_liquidatable g c = true)]
      dsimp only
      omega
    · rw [if_neg helig, if_neg (by simp [hnil, helig] : ¬ ((collectBids g c st.keepers st.rng).1 ≠ []
          ∨ LiquidationGame.is_truly_liquidatable g c = true))]
      dsimp only
      omega
  · have hne : (collectBids g c st.keepers st.rng).1 ≠ [] :=
      fun hh => hemp (List.isEmpty_iff.mpr hh)
    rw [if_neg hemp]
    by_cases helig : LiquidationGame.is_truly_liquidatable g c = true
    · rw [if_pos helig, if_pos (Or.inl hne)]
      dsimp only
      omega
    · rw [if_neg helig, if_pos (Or.inl hne)]
      dsimp only
      omega

theorem foldl_processCDP_nonneg (g : LiquidationGame) (l : List CDP) (st : RunAcc)
    (hks : KeepersNonneg st.keepers) :
    KeepersNonneg ((l.foldl (processCDP g) st).keepers) := by
  induction l generalizing st with
  | nil => simpa using hks
  | cons c cs ih =>
      rw [List.foldl_cons]
      exact ih _ (processCDP_nonneg g st c hks)

theorem foldl_processCDP_sum_le (g : LiquidationGame) (l : List CDP) (st : RunAcc)
    (hsum : sumProfits st.keepers ≤ st.total_profit_extracted) :
    sumProfits ((l.foldl (processCDP g) st).keepers)
      ≤ (l.foldl (processCDP g) st).total_profit_extracted := by
  induction l generalizing st with
  | nil => simpa using hsum
  | cons c cs ih =>
      rw [List.foldl_cons]
      exact ih _ (processCDP_sum_le g st c hsum)

theorem foldl_processCDP_succ_le (g : LiquidationGame) (l : List CDP) (st : RunAcc) :
    (l.foldl (processCDP g) st).successful_liquidations
      ≤ st.successful_liquidations
        + l.countP (LiquidationGame.is_truly_liquidatable g) := by
  induction l generalizing st with
  | nil => simp
  | cons c cs ih =>
      rw [List.foldl_cons, List.countP_cons]
      have h1 := ih (processCDP g st c)
      have h2 := processCDP_succ_le g st c
      by_cases helig : LiquidationGame.is_truly_liquidatable g c = true
      · rw [if_pos helig] at h2
        rw [if_pos helig]
        omega
      · rw [if_neg helig] at h2
        rw [if_neg helig]
        omega

theorem foldl_processCDP_counts_le (g : LiquidationGame) (l : List CDP) (st : RunAcc) :
    (l.foldl (processCDP g) st).successful_liquidations
        + (l.foldl (processCDP g) st).failed_attempts
        + (l.foldl (processCDP g) st).missed_liquidations
      ≤ st.successful_liquidations + st.failed_attempts + st.missed_liquidations
        + l.length := by
  induction l generalizing st with
  | nil => simp
  | cons c cs ih =>
      rw [List.foldl_cons, List.length_cons]
      have h1 := ih (processCDP g st c)
      have h2 := processCDP_counts g st c
      generalize hd : (if (collectBids g c st.keepers st.rng).1 ≠ []
          ∨ LiquidationGame.is_truly_liquidatable g c = true then 1 else 0) = d at h2
      have h3 : d ≤ 1 := by
        rw [← hd]
        split <;> omega
      omega

/-! ## Initial state and metric helpers -/

theorem genWith_length {α : Type} (f : Nat → Rng → α × Rng) (l : List Nat) (r : Rng) :
    ((genWith f l r).1).length = l.length := by
  induction l generalizing r with
  | nil => simp [genWith]
  | cons i is ih => simp [genWith, ih]

theorem genWith_keeper_profit (l : List Nat) (r : Rng) :
    ∀ k ∈ (genWith Keeper.new l r).1, k.total_profit = 0 := by
  induction l generalizing r with
  | nil => simp [genWith]
  | cons i is ih =>
      intro k hk
      simp only [genWith] at hk
      rcases List.mem_cons.mp hk with h | h
      · subst h; rfl
      · exact ih _ k h

theorem genWith_keeper_nonneg (l : List Nat) (r : Rng) :
    KeepersNonneg (genWith Keeper.new l r).1 := by
  intro k hk
  rw [genWith_keeper_profit l r k hk]

theorem sumProfits_genWith_keeper (l : List Nat) (r : Rng) :
    sumProfits (genWith Keeper.new l r).1 = 0 := by
  apply List.sum_eq_zero
  intro x hx
  rcases List.mem_map.mp hx with ⟨k, hk, hkx⟩
  rw [← hkx]
  exact genWith_keeper_profit l r k hk

theorem sum_take_le_of_nonneg (l : List ℚ) (n : Nat) (h : ∀ x ∈ l, 0 ≤ x) :
    (l.take n).sum ≤ l.sum := by
  have hsplit : (l.take n).sum + (l.drop n).sum = l.sum := by
    rw [← List.sum_append, List.take_append_drop]
  have hd : 0 ≤ (l.drop n).sum :=
    List.sum_nonneg (fun x hx => h x (List.drop_subset n l hx))
  linarith

theorem sum_take_nonneg (l : List ℚ) (n : Nat) (h : ∀ x ∈ l, 0 ≤ x) :
    0 ≤ (l.take n).sum :=
  List.sum_nonneg (fun x hx => h x (List.take_subset n l hx))

/-- The number of truly liquidatable indices equals the `countP` over the
position list. -/
theorem truly_length_eq (game : LiquidationGame) :
    ((game.cdps.enum.filter
        (fun ic => LiquidationGame.is_truly_liquidatable game ic.2)).map
      (fun ic => ic.1)).length
      = game.cdps.countP (LiquidationGame.is_truly_liquidatable game) := by
  rw [List.length_map, ← List.countP_eq_length_filter]
  have h1 : game.cdps.enum.countP (fun ic => LiquidationGame.is_truly_liquidatable game ic.2)
      = (game.cdps.enum.map Prod.snd).countP (LiquidationGame.is_truly_liquidatable game) := by
    rw [List.countP_map]
    rfl
  rw [h1, List.enum_map_snd]

theorem countP_le_length {α : Type} (p : α → Bool) (l : List α) :
    l.countP p ≤ l.length :=
  List.countP_le_length p

/-! ## Sortedness of the bid ranking -/

theorem sortBids_head_max (l : List Bid) (hl : l ≠ []) :
    ∀ b ∈ sortBids l, b.2.1 ≤ ( (sortBids l).getD 0 default).2.1 := by
  have hsorted : (sortBids l).Pairwise (fun a b => (fun a b => decide (b.2.1 ≤ a.2.1)) a b = true) := by
    apply List.sorted_mergeSort
    · intro a b c hab hbc
      simp only [decide_eq_true_eq] at hab hbc ⊢
      exact le_trans hbc hab
    · intro a b
      simp only [Bool.or_eq_true, decide_eq_true_eq]
      exact le_total b.2.1 a.2.1
  have hne : sortBids l ≠ [] := by
    intro hnil
    have := sortBids_length l
    rw [hnil] at this
    exact hl (List.length_eq_zero.mp this.symm)
  cases hs : sortBids l with
  | nil => exact absurd hs hne
  | cons a t =>
      rw [hs] at hsorted
      intro b hb
      rcases List.mem_cons.mp hb with h | h
      · subst h; simp
      · have := (List.pairwise_cons.mp hsorted).1 b h
        simp only [decide_eq_true_eq] at this
        simpa using this

/-- The length of the generated position list. -/
theorem simulate_cdps_length (strat : ObfuscationStrategy) (r : Rng) :
    (LiquidationGame.simulate_price_drop (LiquidationGame.new strat r).1 (10/100)).cdps.length
      = NUM_CDPS := by
  show ((genWith CDP.new (List.range NUM_CDPS) r).1).length = NUM_CDPS
  rw [genWith_length, List.length_range]

/-- C6: every run's profit concentration, gas-waste ratio and coverage lie
in the closed interval [0,1]. -/
theorem run_metrics_in_unit_interval (strat : ObfuscationStrategy) (r : Rng) :
    (0 ≤ GameResult.profit_concentration (simulate_game strat r)
      ∧ GameResult.profit_concentration (simulate_game strat r) ≤ 1)
    ∧ (0 ≤ GameResult.gas_waste_ratio (simulate_game strat r)
      ∧ GameResult.gas_waste_ratio (simulate_game strat r) ≤ 1)
    ∧ (0 ≤ GameResult.coverage (simulate_game strat r)
      ∧ GameResult.coverage (simulate_game strat r) ≤ 1) := by
  simp only [simulate_game]
  set G := LiquidationGame.simulate_price_drop (LiquidationGame.new strat r).1 (10/100) with hG
  set kp := genWith Keeper.new (List.range NUM_KEEPERS) (LiquidationGame.new strat r).2 with hkp
  set st0 : RunAcc :=
    { keepers := kp.1, total_profit_extracted := 0, failed_attempts := 0,
      successful_liquidations := 0, front_runner_profit := 0,
      missed_liquidations := 0, rng := kp.2 } with hst0
  set st := List.foldl (processCDP G) st0 G.cdps with hst
  have hks : KeepersNonneg st.keepers := by
    apply foldl_processCDP_nonneg
    show KeepersNonneg kp.1
    rw [hkp]
    exact genWith_keeper_nonneg _ _
  have hsum : sumProfits st.keepers ≤ st.total_profit_extracted := by
    apply foldl_processCDP_sum_le
    show sumProfits kp.1 ≤ (0:ℚ)
    rw [hkp, sumProfits_genWith_keeper]
  have hsucc : st.successful_liquidations
      ≤ G.cdps.countP (LiquidationGame.is_truly_liquidatable G) := by
    have h := foldl_processCDP_succ_le G G.cdps st0
    have h0 : st0.successful_liquidations = 0 := rfl
    rw [← hst, h0, Nat.zero_add] at h
    exact h
  refine ⟨?_, ?_, ?_⟩
  · by_cases hT : 0 < st.total_profit_extracted
    · rw [if_pos hT]
      have hmem : ∀ x ∈ (st.keepers.map Keeper.total_profit).mergeSort
          (fun a b => decide (b ≤ a)), 0 ≤ x := by
        intro x hx
        have hx2 : x ∈ st.keepers.map Keeper.total_profit :=
          (List.mergeSort_perm (st.keepers.map Keeper.total_profit) _).mem_iff.mp hx
        rcases List.mem_map.mp hx2 with ⟨k, hk, hkx⟩
        rw [← hkx]
        exact hks k hk
      constructor
      · exact div_nonneg (sum_take_nonneg _ _ hmem) hT.le
      · rw [div_le_one hT]
        calc (((st.keepers.map Keeper.total_profit).mergeSort
                (fun a b => decide (b ≤ a))).take (NUM_KEEPERS / 5)).sum
            ≤ ((st.keepers.map Keeper.total_profit).mergeSort
                (fun a b => decide (b ≤ a))).sum := sum_take_le_of_nonneg _ _ hmem
          _ = (st.keepers.map Keeper.total_profit).sum :=
            (List.mergeSort_perm (st.keepers.map Keeper.total_profit) _).sum_eq
          _ = sumProfits st.keepers := rfl
          _ ≤ st.total_profit_extracted := hsum
    · rw [if_neg hT]
      exact ⟨le_refl 0, zero_le_one⟩
  · have hpos : 0 < ((max (st.failed_attempts + st.successful_liquidations) 1 : Nat) : ℚ) := by
      have : 0 < max (st.failed_attempts + st.successful_liquidations) 1 :=
        Nat.lt_of_lt_of_le Nat.zero_lt_one (le_max_right _ _)
      exact_mod_cast this
    constructor
    · exact div_nonneg (Nat.cast_nonneg _) (Nat.cast_nonneg _)
    · rw [div_le_one hpos]
      have hle : st.failed_attempts ≤ max (st.failed_attempts + st.successful_liquidations) 1 :=
        le_trans (Nat.le_add_right _ _) (le_max_left _ _)
      exact_mod_cast hle
  · rw [truly_length_eq G]
    have hpos : 0 < ((max (G.cdps.countP (LiquidationGame.is_truly_liquidatable G)) 1 : Nat) : ℚ) := by
      have : 0 < max (G.cdps.countP (LiquidationGame.is_truly_liquidatable G)) 1 :=
        Nat.lt_of_lt_of_le Nat.zero_lt_one (le_max_right _ _)
      exact_mod_cast this
    constructor
    · exact div_nonneg (Nat.cast_nonneg _) (Nat.cast_nonneg _)
    · rw [div_le_one hpos]
      have hle : st.successful_liquidations
          ≤ max (G.cdps.countP (LiquidationGame.is_truly_liquidatable G)) 1 :=
        le_trans hsucc (le_max_left _ _)
      exact_mod_cast hle

/-! ## Bounds on perception confidence and bid priorities -/

theorem perceive_draws (g : LiquidationGame) (c : CDP) (r : Rng) :
    (( LiquidationGame.keeper_perceives_liquidatable g c r).2).draws = r.draws := by
  obtain ⟨cd, pr, w, thr, strat, noise⟩ := g
  cases strat <;> rfl

theorem perceive_conf_bounds (g : LiquidationGame) (c : CDP) (r : Rng)
    (hdr : ∀ n, 0 ≤ r.draws n ∧ r.draws n ≤ 1)
    (hn : g.noise_level = 29/100) :
    0 ≤ ( LiquidationGame.keeper_perceives_liquidatable g c r).1.2
    ∧ ( LiquidationGame.keeper_perceives_liquidatable g c r).1.2 ≤ 1 := by
  obtain ⟨cd, pr, w, thr, strat, noise⟩ := g
  dsimp only at hn
  subst hn
  have hu := hdr r.idx
  cases strat
  case Transparent =>
      constructor <;> norm_num [LiquidationGame.keeper_perceives_liquidatable]
  case NoiseBased =>
      constructor <;> norm_num [LiquidationGame.keeper_perceives_liquidatable]
  case IPFE =>
      simp only [LiquidationGame.keeper_perceives_liquidatable, Rng.next]
      constructor <;> nlinarith [hu.1, hu.2]
  case FairRAI =>
      simp only [LiquidationGame.keeper_perceives_liquidatable, Rng.next]
      exact hu
  case FairRAI5050 =>
      simp only [LiquidationGame.keeper_perceives_liquidatable, Rng.next]
      exact hu
  case KeeperPool =>
      simp only [LiquidationGame.keeper_perceives_liquidatable, Rng.next]
      exact hu

theorem collectBids_bounds (g : LiquidationGame) (c : CDP) (ks : List Keeper) (r : Rng)
    (hdr : ∀ n, 0 ≤ r.draws n ∧ r.draws n ≤ 1)
    (hk : ∀ k ∈ ks, 0 ≤ k.gas_priority ∧ k.gas_priority ≤ 1)
    (hn : g.noise_level = 29/100) :
    ∀ b ∈ (collectBids g c ks r).1,
      (0 ≤ b.2.1 ∧ b.2.1 ≤ 1) ∧ (0 ≤ b.2.2 ∧ b.2.2 ≤ 1) := by
  induction ks generalizing r with
  | nil => simp [collectBids]
  | cons k ks ih =>
      intro b hb
      simp only [collectBids] at hb
      have hdr2 : ∀ n, 0 ≤ (( LiquidationGame.keeper_perceives_liquidatable g c r).2).draws n
          ∧ (( LiquidationGame.keeper_perceives_liquidatable g c r).2).draws n ≤ 1 := by
        rw [perceive_draws]
        exact hdr
      have hconf := perceive_conf_bounds g c r hdr hn
      have hkhead := hk k (List.mem_cons_self k ks)
      have hktail : ∀ q ∈ ks, 0 ≤ q.gas_priority ∧ q.gas_priority ≤ 1 :=
        fun q hq => hk q (List.mem_cons_of_mem _ hq)
      by_cases hp : ( LiquidationGame.keeper_perceives_liquidatable g c r).1.1 = true
      · rw [if_pos hp] at hb
        rcases List.mem_cons.mp hb with hbh | hbt
        · subst hbh
          refine ⟨⟨?_, ?_⟩, hconf⟩
          · exact mul_nonneg hkhead.1 hconf.1
          · exact mul_le_one₀ hkhead.2 hconf.1 hconf.2
        · exact ih _ hdr2 hktail b hbt
      · rw [if_neg hp] at hb
        exact ih _ hdr2 hktail b hb

/-! ## Claim theorems -/

/-- C1 (amended): the Price of Anarchy is the averaged Nash cost divided by the
hardcoded social optimum 0.2 (not 1/bidder_count = 1/20); the floor
max(social_optimum, 0.01) never binds since 0.2 > 0.01. -/
theorem poa_formula (results : List GameResult) :
    compute_poa results
      = ((results.map GameResult.profit_concentration).sum / (results.length : ℚ)
          + (results.map GameResult.gas_waste_ratio).sum / (results.length : ℚ)
          + (1 - (results.map GameResult.coverage).sum / (results.length : ℚ)))
        / (2/10) := by
  simp only [compute_poa]
  rw [max_eq_left (by norm_num : (1:ℚ)/100 ≤ 2/10 + 0 + 0)]
  norm_num

/-- C1 counterexample: on a run record with concentration 1/2, gas waste 1/4
and coverage 3/4 (Nash cost 1), the code computes PoA = 1/0.2 = 5, while the
claim's social optimum of 1/20 would give 1/0.05 = 20. -/
theorem poa_not_equal_split_ce :
    compute_poa [⟨ObfuscationStrategy.Transparent, 0, 0, 0, 0, 0, 1/2, 1/4, 3/4⟩] = 5
    ∧ compute_poa_equal_split
        [⟨ObfuscationStrategy.Transparent, 0, 0, 0, 0, 0, 1/2, 1/4, 3/4⟩] = 20
    ∧ compute_poa [⟨ObfuscationStrategy.Transparent, 0, 0, 0, 0, 0, 1/2, 1/4, 3/4⟩]
        ≠ compute_poa_equal_split
            [⟨ObfuscationStrategy.Transparent, 0, 0, 0, 0, 0, 1/2, 1/4, 3/4⟩] := by
  refine ⟨?_, ?_, ?_⟩ <;>
    norm_num [compute_poa, compute_poa_equal_split, NUM_KEEPERS]

/-- C2: with a non-empty bid list, the fair strategies (FairRAI, FairRAI5050,
KeeperPool) draw the winner index uniformly at random over the whole sorted bid
list — the index is a fresh uniform draw mapped onto 0..len-1, every index is
reachable by some draw in [0,1) — while Transparent, NoiseBased and IPFE take
index 0 of the list sorted descending by priority, whose head has maximal
priority. -/
theorem winner_selection (strat : ObfuscationStrategy) (attempts : List Bid) (r : Rng)
    (h : attempts ≠ []) :
    ((strat = ObfuscationStrategy.FairRAI ∨ strat = ObfuscationStrategy.FairRAI5050
        ∨ strat = ObfuscationStrategy.KeeperPool) →
      uses_random strat = true
      ∧ (select_winner_idx strat (sortBids attempts).length r).1
          = min (Int.toNat ⌊r.draws r.idx * ((sortBids attempts).length : ℚ)⌋)
              ((sortBids attempts).length - 1)
      ∧ (∀ i < (sortBids attempts).length, ∃ u : ℚ, 0 ≤ u ∧ u < 1
          ∧ (select_winner_idx strat (sortBids attempts).length ⟨fun _ => u, 0⟩).1 = i))
    ∧ ((strat = ObfuscationStrategy.Transparent ∨ strat = ObfuscationStrategy.NoiseBased
        ∨ strat = ObfuscationStrategy.IPFE) →
      uses_random strat = false
      ∧ (select_winner_idx strat (sortBids attempts).length r).1 = 0
      ∧ ∀ b ∈ sortBids attempts, b.2.1 ≤ ( (sortBids attempts).getD 0 default).2.1) := by
  have hlen : 0 < (sortBids attempts).length := by
    rw [sortBids_length]
    exact List.length_pos.mpr h
  constructor
  · intro hs
    have hur : uses_random strat = true := by
      rcases hs with h1 | h1 | h1 <;> subst h1 <;> rfl
    refine ⟨hur, ?_, ?_⟩
    · simp [select_winner_idx, hur, Rng.nextRange, Rng.next]
    · intro i hi
      refine ⟨(i : ℚ) / ((sortBids attempts).length : ℚ), ?_, ?_, ?_⟩
      · positivity
      · rw [div_lt_one (by exact_mod_cast hlen)]
        exact_mod_cast hi
      · simp only [select_winner_idx, hur, if_true, Rng.nextRange, Rng.next]
        have hlen0 : ((sortBids attempts).length : ℚ) ≠ 0 := by
          exact_mod_cast Nat.pos_iff_ne_zero.mp hlen
        rw [div_mul_cancel₀ _ hlen0, Int.floor_natCast]
        simp only [Int.toNat_natCast]
        exact Nat.min_eq_left (by omega)
  · intro hs
    have hur : uses_random strat = false := by
      rcases hs with h1 | h1 | h1 <;> subst h1 <;> rfl
    refine ⟨hur, ?_, sortBids_head_max attempts h⟩
    simp [select_winner_idx, hur]

/-- C2 witness: a singleton bid list is non-empty and KeeperPool is one of the
randomized strategies. -/
theorem winner_selection_witness :
    ([((0:Nat), (1:ℚ), (1:ℚ))] : List Bid) ≠ []
    ∧ uses_random ObfuscationStrategy.KeeperPool = true :=
  ⟨by simp,
   ((winner_selection ObfuscationStrategy.KeeperPool [(0, 1, 1)] ⟨fun _ => 0, 0⟩
      (by simp)).1 (Or.inr (Or.inr rfl))).1⟩

/-- C3: under NoiseBased, the perceived eligibility compares the true score
against the threshold perturbed multiplicatively by noise_level·2·(U−0.5) for a
fresh uniform draw U, the returned confidence is 1 − noise_level, and exactly
one draw is consumed. -/
theorem noise_perception (g : LiquidationGame) (c : CDP) (r : Rng)
    (h : g.strategy = ObfuscationStrategy.NoiseBased) :
    LiquidationGame.keeper_perceives_liquidatable g c r
      = ((decide ( LiquidationGame.compute_true_score g c
            < g.true_threshold * (1 + g.noise_level * 2 * (r.draws r.idx - 5/10))),
          1 - g.noise_level),
         ⟨r.draws, r.idx + 1⟩) := by
  obtain ⟨cd, pr, w, thr, strat, noise⟩ := g
  dsimp only at h
  subst h
  simp only [LiquidationGame.keeper_perceives_liquidatable, Rng.next]
  have harg : thr * (1 + (r.draws r.idx - 5/10) * 2 * noise)
      = thr * (1 + noise * 2 * (r.draws r.idx - 5/10)) := by ring
  simp only [harg]

/-- C3 witness: a concrete NoiseBased game with a zero draw returns confidence
1 − 0.29. -/
theorem noise_perception_witness :
    ( LiquidationGame.keeper_perceives_liquidatable
        ⟨[], 2000, [2, -1, -3/2, 3/10, -3/10], 2, ObfuscationStrategy.NoiseBased, 29/100⟩
        ⟨0, 1, 1, 0, 0⟩ ⟨fun _ => 0, 0⟩).1.2 = 1 - 29/100 := by
  have h := noise_perception
    ⟨[], 2000, [2, -1, -3/2, 3/10, -3/10], 2, ObfuscationStrategy.NoiseBased, 29/100⟩
    ⟨0, 1, 1, 0, 0⟩ ⟨fun _ => 0, 0⟩ rfl
  rw [h]

/-- C4 witness: a single FairRAI bid from keeper 0 gives the winner the whole
unit profit. -/
theorem fair_sum_witness :
    sumProfits (distributeProfit ObfuscationStrategy.FairRAI 1 [(0, 1, 1)] 0 0
        [⟨0, 0, 0, 0⟩])
      = sumProfits [⟨0, 0, 0, 0⟩] + 1 :=
  distributeProfit_fair_sum ObfuscationStrategy.FairRAI 1 [(0, 1, 1)] 0 0
    [⟨0, 0, 0, 0⟩] (Or.inl rfl) (by simp) (by simp) (by simp)

/-- C5: for an eligible position resolved under KeeperPool with a non-empty bid
list, the sum of all bidder profit increments equals exactly 0.7 × profit (the
remaining 30% is assigned to no bidder), and every bidder appearing exactly
once in the list receives exactly 0.7 × profit / k. -/
theorem keeperpool_split (profit : ℚ) (attempts : List Bid) (widx wid : Nat)
    (ks : List Keeper) (hne : attempts ≠ [])
    (hkid : ∀ b ∈ attempts, b.1 < ks.length) :
    sumProfits (distributeProfit ObfuscationStrategy.KeeperPool profit attempts widx wid ks)
        = sumProfits ks + profit * (7/10)
    ∧ ∀ b ∈ attempts, attempts.countP (fun x => decide (x.1 = b.1)) = 1 →
        getProfit (distributeProfit ObfuscationStrategy.KeeperPool profit attempts widx wid ks) b.1
          = getProfit ks b.1 + profit * (7/10) / (attempts.length : ℚ) := by
  constructor
  · exact distributeProfit_pool_sum profit attempts widx wid ks hne hkid
  · intro b hb hcount
    simp only [distributeProfit]
    rw [getProfit_distributeAll _ _ _ _ (hkid b hb), hcount]
    simp

/-- C5 witness: one KeeperPool bid from keeper 0 distributes 0.7 of the unit
profit in total. -/
theorem keeperpool_split_witness :
    sumProfits (distributeProfit ObfuscationStrategy.KeeperPool 1 [(0, 1, 1)] 0 0
        [⟨0, 0, 0, 0⟩])
      = sumProfits [⟨0, 0, 0, 0⟩] + 1 * (7/10) :=
  (keeperpool_split 1 [(0, 1, 1)] 0 0 [⟨0, 0, 0, 0⟩] (by simp) (by simp)).1

/-- C7: when the bid list of a position is empty, no winner selection and no
profit distribution happens: the run state is unchanged except that
missed_liquidations is incremented if and only if the position is truly
eligible (and the rng is left where bid collection put it). -/
theorem empty_bids_no_resolution (g : LiquidationGame) (st : RunAcc) (c : CDP)
    (r' : Rng) (h : collectBids g c st.keepers st.rng = ([], r')) :
    processCDP g st c
      = if LiquidationGame.is_truly_liquidatable g c
          then { st with missed_liquidations := st.missed_liquidations + 1, rng := r' }
          else { st with rng := r' } := by
  by_cases helig : LiquidationGame.is_truly_liquidatable g c = true
  · simp [processCDP, h, helig]
  · simp [processCDP, h, helig]

/-- C7 witness: with no keepers the bid list is empty and the step reduces to
the missed-liquidation check. -/
theorem empty_bids_no_resolution_witness :
    processCDP ⟨[], 2000, [2, -1, -3/2, 3/10, -3/10], 2, ObfuscationStrategy.Transparent, 29/100⟩
        ⟨[], 0, 0, 0, 0, 0, ⟨fun _ => 0, 0⟩⟩ ⟨0, 1, 1, 0, 0⟩
      = if LiquidationGame.is_truly_liquidatable
            ⟨[], 2000, [2, -1, -3/2, 3/10, -3/10], 2, ObfuscationStrategy.Transparent, 29/100⟩
            ⟨0, 1, 1, 0, 0⟩
          then { (⟨[], 0, 0, 0, 0, 0, ⟨fun _ => 0, 0⟩⟩ : RunAcc) with
                  missed_liquidations :=
                    (⟨[], 0, 0, 0, 0, 0, ⟨fun _ => 0, 0⟩⟩ : RunAcc).missed_liquidations + 1,
                  rng := ⟨fun _ => 0, 0⟩ }
          else { (⟨[], 0, 0, 0, 0, 0, ⟨fun _ => 0, 0⟩⟩ : RunAcc) with rng := ⟨fun _ => 0, 0⟩ } :=
  empty_bids_no_resolution _ _ _ _ rfl

/-- C8: a run is a pure function of the injected draw stream — two runs driven
by identical draw sequences produce identical GameResult records. -/
theorem run_reproducible (strat : ObfuscationStrategy) (r1 r2 : Rng) (h : r1 = r2) :
    simulate_game strat r1 = simulate_game strat r2 := by
  rw [h]

/-- C8 witness: the all-zeros draw stream reproduces itself. -/
theorem run_reproducible_witness :
    simulate_game ObfuscationStrategy.Transparent ⟨fun _ => 0, 0⟩
      = simulate_game ObfuscationStrategy.Transparent ⟨fun _ => 0, 0⟩ :=
  run_reproducible ObfuscationStrategy.Transparent ⟨fun _ => 0, 0⟩ ⟨fun _ => 0, 0⟩ rfl

/-- C9: each position increments exactly one of the three counters when it has
bids or is truly eligible and none otherwise, so the three counters of a run
sum to at most the position count NUM_CDPS. -/
theorem counters_partition (strat : ObfuscationStrategy) (r : Rng) :
    (∀ (g : LiquidationGame) (st : RunAcc) (c : CDP),
       (processCDP g st c).successful_liquidations + (processCDP g st c).failed_attempts
           + (processCDP g st c).missed_liquidations
         = st.successful_liquidations + st.failed_attempts + st.missed_liquidations
           + (if (collectBids g c st.keepers st.rng).1 ≠ []
                 ∨ LiquidationGame.is_truly_liquidatable g c = true then 1 else 0))
    ∧ GameResult.successful_liquidations (simulate_game strat r)
        + GameResult.failed_attempts (simulate_game strat r)
        + GameResult.missed_liquidations (simulate_game strat r) ≤ NUM_CDPS := by
  constructor
  · exact processCDP_counts
  · simp only [simulate_game]
    refine le_trans (foldl_processCDP_counts_le _ _ _) ?_
    show 0 + 0 + 0
        + (LiquidationGame.simulate_price_drop (LiquidationGame.new strat r).1
              (10/100)).cdps.length ≤ NUM_CDPS
    rw [simulate_cdps_length]
    omega

/-- C10: under draws in [0,1], a games-standard noise level, and keeper gas
priorities in [0,1], every emitted bid has priority and confidence in [0,1],
and all accumulated keeper profits stay nonnegative — the quantities the two
unwrapped sorts compare are well-defined bounded rationals. -/
theorem bids_finite_bounded (g : LiquidationGame) (keepers : List Keeper) (c : CDP)
    (r : Rng)
    (hdr : ∀ n, 0 ≤ r.draws n ∧ r.draws n ≤ 1)
    (hn : g.noise_level = 29/100)
    (hk : ∀ k ∈ keepers, 0 ≤ k.gas_priority ∧ k.gas_priority ≤ 1) :
    (∀ b ∈ (collectBids g c keepers r).1,
        (0 ≤ b.2.1 ∧ b.2.1 ≤ 1) ∧ (0 ≤ b.2.2 ∧ b.2.2 ≤ 1))
    ∧ (∀ (l : List CDP) (st : RunAcc), KeepersNonneg st.keepers →
        KeepersNonneg ((l.foldl (processCDP g) st).keepers)) := by
  constructor
  · exact collectBids_bounds g c keepers r hdr hk hn
  · intro l st hst
    exact foldl_processCDP_nonneg g l st hst

/-- C10 witness: with a single keeper of gas priority 1, zero starting profit
and the all-zeros draw stream, profits after processing one position are still
all nonnegative. -/
theorem bids_finite_bounded_witness :
    KeepersNonneg ((([⟨0, 1, 1, 0, 0⟩] : List CDP).foldl
        (processCDP
          ⟨[], 2000, [2, -1, -3/2, 3/10, -3/10], 2, ObfuscationStrategy.Transparent, 29/100⟩)
        ⟨[⟨0, 1, 0, 0⟩], 0, 0, 0, 0, 0, ⟨fun _ => 0, 0⟩⟩).keepers) :=
  (bids_finite_bounded
    ⟨[], 2000, [2, -1, -3/2, 3/10, -3/10], 2, ObfuscationStrategy.Transparent, 29/100⟩
    [⟨0, 1, 0, 0⟩] ⟨0, 1, 1, 0, 0⟩ ⟨fun _ => 0, 0⟩
    (fun _ => ⟨le_refl 0, zero_le_one⟩) rfl
    (fun k hk => by
      rw [List.mem_singleton] at hk
      subst hk
      exact ⟨zero_le_one, le_refl 1⟩)).2
    [⟨0, 1, 1, 0, 0⟩] ⟨[⟨0, 1, 0, 0⟩], 0, 0, 0, 0, 0, ⟨fun _ => 0, 0⟩⟩
    (fun k hk => by
      rw [List.mem_singleton] at hk
      subst hk
      exact le_refl 0)
